import Mathlib

/-!
Shallow embedding of the dbgen core: the `Value` data model with its SQL-style
comparison, remainder and concatenation (src/src/value.rs), the constant-folding
paths of the `Logic` (AND/OR) and `Extremum` (least/greatest) SQL functions
(src/src/functions/ops.rs), and the script/clause emission of the schema
synthesizer (src/src/schemagen_cli.rs).

Modules of the repository that are referenced from value.rs but whose sources
are not part of this tree (number.rs, bytes.rs, array.rs, format.rs, the chrono
crate) are modelled from the specification and marked as such in the doc
comments.  Machine integers (i64, i128) are embedded as `Int` with explicit
range statements where overflow matters.
-/

/-- Errors of the number tower.  Modelled from the spec: number.rs is not in
the source tree; section 4.2 names the two failure modes `NaN` and
`Overflow`. -/
inductive NumberError where
  | NaN
  | Overflow
deriving DecidableEq

/-- Modelled from the spec: number.rs is not in the source tree.  `Number` is a
three-variant tagged sum: signed 128-bit integer, unsigned 128-bit integer and
finite 64-bit float.  Integers are embedded as `Int`/`Nat`; a finite float is a
rational number, and the spec orders all variants by mathematical value, which
the embedding realises through `Number.toRat`. -/
inductive Number where
  | int (i : Int)
  | uint (n : Nat)
  | float (q : ℚ)
deriving DecidableEq

/-- The mathematical value of a `Number`. -/
def Number.toRat : Number → ℚ
  | .int i => (i : ℚ)
  | .uint n => (n : ℚ)
  | .float q => q

/-- Modelled from the spec: `Number` supports partial ordering across all
variants by mathematical value; since the float variant holds only finite
values the comparison always produces an answer. -/
def Number.pcmp (a b : Number) : Option Ordering :=
  some (compare a.toRat b.toRat)

/-- Modelled from the spec: the sign of a number, used by `Value::sql_sign` and
by the conversion to a nullable boolean. -/
def Number.sql_sign (n : Number) : Ordering :=
  compare n.toRat 0

/-- Decimal rendering of a number.  Modelled from the spec: the Display
implementation lives in number.rs, which is not in the source tree; integers
render in decimal, which is the only case exercised by the claims. -/
def Number.display : Number → String
  | .int i => toString i
  | .uint n => toString n
  | .float q => toString q

/-- Truncation of a rational toward zero. -/
def ratTrunc (q : ℚ) : Int :=
  q.num.tdiv (q.den : Int)

/-- Whether the number is the float variant. -/
def Number.isFloat : Number → Bool
  | .float _ => true
  | _ => false

/-- The integer payload of an integral number (junk on floats). -/
def Number.intPayload : Number → Int
  | .int i => i
  | .uint n => (n : Int)
  | .float _ => 0

/-- Modelled from the spec (section 4.2): remainder is truncated toward zero;
division by zero yields the `NaN` error (surfacing as `Null`); integral `mod`
by `-1` yields `0`, avoiding the `i128::MIN` overflow; any float operand takes
the float path. -/
def Number.rem (a b : Number) : Except NumberError Number :=
  if a.isFloat || b.isFloat then
    let x := a.toRat
    let y := b.toRat
    if y = 0 then .error .NaN else .ok (.float (x - y * ((ratTrunc (x / y) : ℚ))))
  else
    let x := a.intPayload
    let y := b.intPayload
    if y = 0 then .error .NaN
    else if y = -1 then .ok (.int 0)
    else .ok (.int (x.tmod y))

/-- Modelled from the spec: bytes.rs is not in the source tree; a `ByteString`
is a byte vector (the known-UTF-8 flag plays no role in the verified
operations).  Bytes are embedded as `Nat`. -/
abbrev ByteString := List Nat

/-- The bytes of a string, used when formatting values into a byte string. -/
def strBytes (s : String) : ByteString :=
  s.data.map Char.toNat

/-- Modelled from the spec: `ByteString` ordering is lexicographic
unsigned-byte ordering (UTF-8 binary collation). -/
def byteCmp : ByteString → ByteString → Ordering
  | [], [] => .eq
  | [], _ :: _ => .lt
  | _ :: _, [] => .gt
  | a :: as, b :: bs =>
    match compare a b with
    | .eq => byteCmp as bs
    | o => o

/-- Errors of the dbgen library (src/src/error.rs), restricted to the variants
reachable from the embedded operations. -/
inductive Error where
  | IntegerOverflow (expr : String)
  | NotEnoughArguments
  | InvalidArguments (cause : String)
  | UnexpectedValueType (expected : String) (value : String)
deriving DecidableEq

deriving instance DecidableEq for Except

/-- Left-pad a decimal rendering with zeros. -/
def padZeros (width n : Nat) : String :=
  let s := toString n
  if s.length < width then String.mk (List.replicate (width - s.length) (Char.ofNat 48)) ++ s
  else s

/-- Civil date from a day count relative to 1970-01-01 (proleptic Gregorian).
Modelled from the spec: calendar conversion is performed by the external chrono
crate. -/
def civilFromDays (z0 : Int) : Int × Nat × Nat :=
  let z := z0 + 719468
  let era := z.ediv 146097
  let doe := (z - era * 146097).toNat
  let yoe := (doe - doe / 1460 + doe / 36524 - doe / 146096) / 365
  let y := (yoe : Int) + era * 400
  let doy := doe - (365 * yoe + yoe / 4 - yoe / 100)
  let mp := (5 * doy + 2) / 153
  let d := doy - (153 * mp + 2) / 5 + 1
  let m := if mp < 10 then mp + 3 else mp - 9
  (if mp < 10 then y else y + 1, m, d)

/-- Rendering of the year field, at least four digits. -/
def yearStr (y : Int) : String :=
  if y < 0 then "-" ++ padZeros 4 (-y).toNat else padZeros 4 y.toNat

/-- Rendering of the fractional-second field of `%.f`: nothing when zero,
otherwise a dot and the shortest of three or six digits.  Modelled from the
spec: formatting is performed by the external chrono crate. -/
def fracStr (f : Nat) : String :=
  if f = 0 then ""
  else if f % 1000 = 0 then "." ++ padZeros 3 (f / 1000)
  else "." ++ padZeros 6 f

/-- The string format of an SQL timestamp (`TIMESTAMP_FORMAT` is
`%Y-%m-%d %H:%M:%S%.f` in src/src/value.rs); the timestamp itself is a count
of microseconds since 1970-01-01 00:00:00 UTC.  Modelled from the spec: the
chrono formatter is external. -/
def formatTimestamp (micros : Int) : String :=
  let sec := micros.ediv 1000000
  let frac := (micros.emod 1000000).toNat
  let sod := (sec.emod 86400).toNat
  let ymd := civilFromDays (sec.ediv 86400)
  yearStr ymd.1 ++ "-" ++ padZeros 2 ymd.2.1 ++ "-" ++ padZeros 2 ymd.2.2 ++ " " ++
    padZeros 2 (sod / 3600) ++ ":" ++ padZeros 2 (sod / 60 % 60) ++ ":" ++
    padZeros 2 (sod % 60) ++ fracStr frac

/-- A scalar value (src/src/value.rs).  The `Timestamp` payload is the count of
microseconds since the Unix epoch in UTC; the `Interval` payload is a count of
microseconds held in an `i64`, embedded as `Int`; an `Array` is embedded as the
list of its elements (array.rs is not in the source tree; the spec describes an
ordered, possibly lazy sequence of values, and laziness is unobservable for the
verified operations). -/
inductive Value where
  | Null
  | Number (n : Number)
  | Bytes (b : ByteString)
  | Timestamp (t : Int)
  | Interval (i : Int)
  | Array (xs : List Value)

/-- The variant tag of a value. -/
inductive Tag where
  | tNull
  | tNumber
  | tBytes
  | tTimestamp
  | tInterval
  | tArray
deriving DecidableEq

/-- The variant tag of a value. -/
def Value.tag : Value → Tag
  | .Null => .tNull
  | .Number _ => .tNumber
  | .Bytes _ => .tBytes
  | .Timestamp _ => .tTimestamp
  | .Interval _ => .tInterval
  | .Array _ => .tArray

/-- Structural equality with `Value::Null` (the derived `PartialEq` compares
`Null` equal to `Null` and to nothing else). -/
def Value.isNull : Value → Bool
  | .Null => true
  | _ => false

/-- Bytes rendered as text, for diagnostics. -/
def byteText (b : ByteString) : String :=
  String.mk (b.map Char.ofNat)

mutual

/-- Textual rendering of a value for error messages.  Modelled from the spec:
the Display implementation delegates to the SQL writer in format.rs, which is
not in the source tree; no verified property depends on the exact text. -/
def Value.display : Value → String
  | .Null => "NULL"
  | .Number n => n.display
  | .Bytes b => byteText b
  | .Timestamp t => formatTimestamp t
  | .Interval i => "INTERVAL " ++ toString i ++ " MICROSECOND"
  | .Array xs => "ARRAY[" ++ Value.displayList xs ++ "]"

/-- Comma-separated rendering of array elements. -/
def Value.displayList : List Value → String
  | [] => ""
  | [x] => x.display
  | x :: xs => x.display ++ ", " ++ Value.displayList xs

end

mutual

/-- `Value::sql_cmp` (src/src/value.rs, lines 125-137): comparing with `Null`
returns `None`; same-variant scalars compare naturally; arrays compare
elementwise; different variants produce the `InvalidArguments` error. -/
def Value.sql_cmp : Value → Value → Except Error (Option Ordering)
  | .Null, _ => .ok none
  | _, .Null => .ok none
  | .Number a, .Number b => .ok (a.pcmp b)
  | .Bytes a, .Bytes b => .ok (some (byteCmp a b))
  | .Timestamp a, .Timestamp b => .ok (some (compare a b))
  | .Interval a, .Interval b => .ok (some (compare a b))
  | .Array a, .Array b => Value.sql_cmp_list a b
  | a, b => .error (.InvalidArguments ("cannot compare " ++ a.display ++ " with " ++ b.display))

/-- `try_partial_cmp_by` (src/src/value.rs, lines 74-91) specialised to element
lists: the first non-equal element decides; on exhaustion the longer list is
greater. -/
def Value.sql_cmp_list : List Value → List Value → Except Error (Option Ordering)
  | [], [] => .ok (some .eq)
  | [], _ :: _ => .ok (some .lt)
  | _ :: _, [] => .ok (some .gt)
  | a :: as, b :: bs =>
    match Value.sql_cmp a b with
    | .ok (some .eq) => Value.sql_cmp_list as bs
    | res => res

end

/-- The `try_from_number!` macro (src/src/value.rs, lines 54-62): a `NaN`
becomes `Null`, an overflow becomes the `IntegerOverflow` error. -/
def tryFromNumber (e : Except NumberError Number) (expr : String) : Except Error Value :=
  match e with
  | .ok n => .ok (.Number n)
  | .error .NaN => .ok .Null
  | .error .Overflow => .error (.IntegerOverflow expr)

/-- `Value::sql_rem` (src/src/value.rs, lines 234-246): numbers take the number
tower; an interval remainder by `0` is `Null`, by `-1` is `Interval(0)`, and
otherwise is the truncated i64 remainder; every other pairing errors. -/
def Value.sql_rem (a b : Value) : Except Error Value :=
  match a, b with
  | .Number lhs, .Number rhs =>
    tryFromNumber (lhs.rem rhs) ("mod(" ++ lhs.display ++ ", " ++ rhs.display ++ ")")
  | .Interval lhs, .Interval rhs =>
    if rhs = 0 then .ok .Null
    else if rhs = -1 then .ok (.Interval 0)
    else .ok (.Interval (lhs.tmod rhs))
  | a, b =>
    .error (.InvalidArguments ("cannot compute remainder of " ++ a.display ++ " by " ++ b.display))

/-- The byte-string image of one non-Null, non-Array value inside
`sql_concat`: numbers in decimal, timestamps in `TIMESTAMP_FORMAT`, intervals
as `INTERVAL <n> MICROSECOND`, bytes raw. -/
def Value.concatBytes : Value → ByteString
  | .Null => []
  | .Number n => strBytes n.display
  | .Bytes b => b
  | .Timestamp t => strBytes (formatTimestamp t)
  | .Interval i => strBytes ("INTERVAL " ++ toString i ++ " MICROSECOND")
  | .Array _ => []

/-- The loop body of `Value::sql_concat` (src/src/value.rs, lines 249-270) with
its accumulator `res`: the scan stops at the first `Null` (result `Null`) or
the first `Array` (error), and otherwise appends the formatted bytes of each
element. -/
def concatLoop (res : ByteString) : List Value → Except Error Value
  | [] => .ok (.Bytes res)
  | v :: rest =>
    match v with
    | .Null => .ok .Null
    | .Number n => concatLoop (res ++ strBytes n.display) rest
    | .Bytes b => concatLoop (res ++ b) rest
    | .Timestamp t => concatLoop (res ++ strBytes (formatTimestamp t)) rest
    | .Interval i => concatLoop (res ++ strBytes ("INTERVAL " ++ toString i ++ " MICROSECOND")) rest
    | .Array _ => .error (.InvalidArguments "cannot concatenate arrays using || operator")

/-- `Value::sql_concat` over a finite sequence of values. -/
def Value.sql_concat (values : List Value) : Except Error Value :=
  concatLoop [] values

/-- `TryFrom<Value> for Option<bool>` (src/src/value.rs, lines 389-399):
`Null` is `None`, a number is `Some(sign != Equal)`, anything else is the
`UnexpectedValueType` error. -/
def Value.as_nullable_bool : Value → Except Error (Option Bool)
  | .Null => .ok none
  | .Number n => .ok (some (match n.sql_sign with | .eq => false | _ => true))
  | v => .error (.UnexpectedValueType "nullable boolean" v.display)

/-- `From<bool>` into `Value` through the number tower (booleans convert to the
numbers 0 and 1; number.rs is not in the source tree, the variant choice is
modelled from the spec). -/
def Value.ofBool (b : Bool) : Value :=
  .Number (.uint (if b then 1 else 0))

/-- `From<Option<T>> for Value` (src/src/value.rs, lines 442-446): `None`
becomes `Null`. -/
def Value.ofOptBool : Option Bool → Value
  | none => .Null
  | some b => Value.ofBool b

/-- The compile-result node (src/src/eval.rs is out of scope; the verified
functions only ever produce the `Constant` form, so the other forms are
omitted). -/
inductive C where
  | Constant (v : Value)

/-- The logical AND/OR SQL functions (src/src/functions/ops.rs, lines
143-170): `identity` is `true` for AND and `false` for OR. -/
structure Logic where
  identity : Bool

/-- The logical AND SQL function. -/
def AND : Logic := ⟨true⟩

/-- The logical OR SQL function. -/
def OR : Logic := ⟨false⟩

/-- The argument loop of `Logic::compile`: each argument is converted to a
nullable boolean in turn; a decisive value (the negation of the identity)
returns immediately, a null clears the pending result. -/
def logicLoop (identity : Bool) (result : Option Bool) : List Value → Except Error Value
  | [] => .ok (Value.ofOptBool result)
  | a :: rest =>
    match a.as_nullable_bool with
    | .error e => .error e
    | .ok (some v) => if v = identity then logicLoop identity result rest else .ok (Value.ofBool v)
    | .ok none => logicLoop identity none rest

/-- `impl Function for Logic` (src/src/functions/ops.rs, lines 155-170) on
constant arguments, spans dropped. -/
def Logic.compile (f : Logic) (args : List Value) : Except Error C :=
  (logicLoop f.identity (some f.identity) args).map C.Constant

/-- The extremum (least/greatest) SQL functions (src/src/functions/ops.rs,
lines 237-249). -/
structure Extremum where
  order : Ordering

/-- The `greatest` SQL function. -/
def GREATEST : Extremum := ⟨.gt⟩

/-- The `least` SQL function. -/
def LEAST : Extremum := ⟨.lt⟩

/-- The reduction loop of `Extremum::compile`: the candidate replaces the
accumulator when `sql_cmp` yields the target ordering, or when the comparison
is undecided (a `Null` operand) and the accumulator is still `Null`. -/
def extremumLoop (order : Ordering) (res : Value) : List Value → Except Error Value
  | [] => .ok res
  | v :: rest =>
    match v.sql_cmp res with
    | .error e => .error e
    | .ok (some o) => extremumLoop order (if o = order then v else res) rest
    | .ok none => extremumLoop order (if res.isNull then v else res) rest

/-- `impl Function for Extremum` (src/src/functions/ops.rs, lines 251-266) on
constant arguments, spans dropped. -/
def Extremum.compile (f : Extremum) (args : List Value) : Except Error C :=
  (extremumLoop f.order .Null args).map C.Constant

/-- The SQL dialect used when generating the schemas
(src/src/schemagen_cli.rs, lines 61-70). -/
inductive Dialect where
  | MySQL
  | PostgreSQL
  | SQLite
deriving DecidableEq

/-- The kind of index clause appended to a CREATE TABLE schema. -/
inductive IndexKind where
  | primaryKey
  | uniqueKey
  | mysqlKey
deriving DecidableEq

/-- The state of `IndexAppender` (src/src/schemagen_cli.rs, lines 294-319).
The two sampling distributions are abstracted away (each call receives the
sampled index set as input), and the growing schema string is modelled by the
list of index clauses pushed onto it, each clause being its kind and its set of
column indices. -/
structure IndexAppender where
  index_sets : Finset (Finset Nat)
  schema : List (IndexKind × Finset Nat)

/-- `IndexAppender::new`: no recorded index sets, nothing appended yet. -/
def IndexAppender.new : IndexAppender := ⟨∅, []⟩

/-- One call of `IndexAppender::append_to`: the sampled index set (a
`BTreeSet<usize>` in the source), whether its summed collision probability
clears the uniqueness cutoff (a floating-point comparison in the source,
abstracted as a boolean), the dialect, and whether this call attempts the
primary key. -/
structure AppendInput where
  index_set : Finset Nat
  is_unique : Bool
  is_primary_key : Bool
  dialect : Dialect

/-- `is_nullable` inside `append_to`: whether the sampled index set touches a
nullable column (`index_set.iter().any(|i| columns[i].nullable)`). -/
def sampledNullable (columns_nullable : List Bool) (s : Finset Nat) : Bool :=
  decide (∃ i ∈ s, columns_nullable.getD i false = true)

/-- `IndexAppender::append_to` (src/src/schemagen_cli.rs, lines 321-359):
a primary-key attempt that is not unique or touches a nullable column is
dropped; an empty or already-recorded set is dropped; otherwise the set is
recorded and the clause is appended - as PRIMARY KEY, as UNIQUE when unique,
as KEY only for MySQL, and otherwise not at all (the set stays recorded). -/
def IndexAppender.append_to (st : IndexAppender) (columns_nullable : List Bool)
    (inp : AppendInput) : IndexAppender :=
  if inp.is_primary_key && (!inp.is_unique || sampledNullable columns_nullable inp.index_set)
    then st
  else if inp.index_set = ∅ ∨ inp.index_set ∈ st.index_sets then st
  else
    let sets := insert inp.index_set st.index_sets
    if inp.is_primary_key then ⟨sets, st.schema ++ [(.primaryKey, inp.index_set)]⟩
    else if inp.is_unique then ⟨sets, st.schema ++ [(.uniqueKey, inp.index_set)]⟩
    else if inp.dialect = .MySQL then ⟨sets, st.schema ++ [(.mysqlKey, inp.index_set)]⟩
    else ⟨sets, st.schema⟩

/-- The appender state after the sequence of `append_to` calls made while
generating one table (src/src/schemagen_cli.rs, lines 397-403: one primary-key
attempt followed by the secondary-key attempts). -/
def runAppender (columns_nullable : List Bool) (inputs : List AppendInput) : IndexAppender :=
  inputs.foldl (fun st inp => st.append_to columns_nullable inp) IndexAppender.new

/-- A single quote character as a string (the schema-create echo line quotes
with single quotes). -/
def squote : String := String.singleton (Char.ofNat 39)

/-- One table as consumed by `print_script` (struct `Table`,
src/src/schemagen_cli.rs, lines 362-367): the per-table seed and the estimated
size already rendered to text (seed display and `to_human_size` are
respectively external and floating point), the rows count, and the CREATE
TABLE text as its list of lines. -/
structure Table where
  seed : String
  rows_count : Nat
  size_str : String
  schema_lines : List String

/-- The `dbgen` invocation line of one table (the second line of the
`println!` at src/src/schemagen_cli.rs, lines 469-485). -/
def invocationLine (exe_suffix seed qsn : String) (i : Nat) (rows_per_file rows_per_insert rows : Nat)
    (extra : String) : String :=
  "dbgen" ++ (exe_suffix ++ (" -i - -o . -s " ++ (seed ++ (" -t " ++ (qsn ++ (".s" ++
    (toString i ++ (" -R " ++ (toString rows_per_file ++ (" -r " ++ (toString rows_per_insert ++
    (" -N " ++ (toString rows ++ (" " ++ (extra ++ " <<SCHEMAEOF")))))))))))))))

/-- The lines printed for one table: the comment line, the invocation line,
the schema heredoc, the heredoc terminator, and the blank line appended by
`println!`. -/
def tableLines (exe_suffix qsn extra : String) (rows_per_file rows_per_insert : Nat)
    (i : Nat) (t : Table) : List String :=
  ("# table: s" ++ (toString i ++ (", rows count: " ++ (toString t.rows_count ++
      (", estimated size: " ++ t.size_str)))))
    :: invocationLine exe_suffix t.seed qsn i rows_per_file rows_per_insert t.rows_count extra
    :: t.schema_lines ++ ["SCHEMAEOF", ""]

/-- The lines printed for the enumerated table list. -/
def tablesLines (exe_suffix qsn extra : String) (rows_per_file rows_per_insert : Nat) :
    Nat → List Table → List String
  | _, [] => []
  | i, t :: ts =>
    tableLines exe_suffix qsn extra rows_per_file rows_per_insert i t ++
      tablesLines exe_suffix qsn extra rows_per_file rows_per_insert (i + 1) ts

/-- The invocation lines alone, one per table, in order. -/
def invocationLines (exe_suffix qsn extra : String) (rows_per_file rows_per_insert : Nat) :
    Nat → List Table → List String
  | _, [] => []
  | i, t :: ts =>
    invocationLine exe_suffix t.seed qsn i rows_per_file rows_per_insert t.rows_count extra
      :: invocationLines exe_suffix qsn extra rows_per_file rows_per_insert (i + 1) ts

/-- The schema-create echo line of the header `println!`
(src/src/schemagen_cli.rs, lines 451-461). -/
def echoLine (qsn unique_name : String) : String :=
  "echo " ++ (squote ++ ("CREATE SCHEMA " ++ (squote ++ (qsn ++ (squote ++ (";" ++ (squote ++
    (" > " ++ (unique_name ++ "-schema-create.sql")))))))))

/-- `print_script` (src/src/schemagen_cli.rs, lines 446-487), with stdout
modelled as the list of printed lines.  The version and git hash (compile-time
environment), the meta seed display, the parsed and quoted schema names, the
executable suffix and the joined extra arguments are taken as inputs, as is the
generated table list (`gen_tables` samples floating-point distributions).
`rows_count_per_file` is `rows_count * inserts_count` as in the source. -/
def print_script (version git_sha meta_seed qsn unique_name exe_suffix extra : String)
    (inserts_count rows_count : Nat) (tables : List Table) : List String :=
  ["#!/bin/sh",
   "# generated by dbschemagen v" ++ (version ++ (" (" ++ (git_sha ++ ("), using seed " ++
     meta_seed)))),
   "",
   "set -eu",
   echoLine qsn unique_name,
   ""] ++ tablesLines exe_suffix qsn extra (rows_count * inserts_count) rows_count 0 tables

/-- Whether a printed line is a comment (starts with the hash character). -/
def isCommentLine (l : String) : Bool :=
  l.data.head? == some (Char.ofNat 35)

/-- Whether a printed line is blank. -/
def isBlankLine (l : String) : Bool :=
  l.data.isEmpty

/-- Whether a printed line is a `dbgen` invocation (starts with `dbgen`). -/
def isDbgenLine (l : String) : Bool :=
  l.data.take 5 == "dbgen".data

/-- The comparison key of a number value (junk on other variants). -/
def numKey : Value → ℚ
  | .Number n => n.toRat
  | _ => 0

/-- The comparison key of a byte-string value (junk on other variants). -/
def bytesKey : Value → ByteString
  | .Bytes b => b
  | _ => []

/-- The comparison key of a timestamp value (junk on other variants). -/
def tsKey : Value → Int
  | .Timestamp t => t
  | _ => 0

/-- The comparison key of an interval value (junk on other variants). -/
def ivKey : Value → Int
  | .Interval i => i
  | _ => 0

theorem sql_cmp_null_left (v : Value) : Value.sql_cmp .Null v = .ok none := by
  cases v <;> rfl

theorem sql_cmp_null_right (v : Value) : Value.sql_cmp v .Null = .ok none := by
  cases v <;> rfl

theorem compareSwapEq {K : Type} [LinearOrder K] (a b : K) :
    compare b a = (compare a b).swap := by
  rcases lt_trichotomy a b with h | h | h
  · rw [compare_lt_iff_lt.2 h, compare_gt_iff_gt.2 h]
    rfl
  · rw [compare_eq_iff_eq.2 h, compare_eq_iff_eq.2 h.symm]
    rfl
  · rw [compare_gt_iff_gt.2 h, compare_lt_iff_lt.2 h]
    rfl

theorem compareSelfEq {K : Type} [LinearOrder K] (a : K) : compare a a = .eq :=
  compare_eq_iff_eq.2 rfl

theorem compareNeTrans {K : Type} [LinearOrder K] (X : Ordering) (hX : X = .lt ∨ X = .gt)
    (a b c : K) (h1 : compare a b ≠ X) (h2 : compare b c ≠ X) : compare a c ≠ X := by
  rcases hX with rfl | rfl
  · rw [compare_ge_iff_ge] at h1 h2 ⊢
    exact le_trans h2 h1
  · rw [compare_le_iff_le] at h1 h2 ⊢
    exact le_trans h1 h2

theorem byteCmp_swap (xs : ByteString) : ∀ ys, byteCmp ys xs = (byteCmp xs ys).swap := by
  induction xs with
  | nil => intro ys; cases ys <;> rfl
  | cons a as ih =>
    intro ys
    cases ys with
    | nil => rfl
    | cons b bs =>
      show (match compare b a with | .eq => byteCmp bs as | o => o) =
        (match compare a b with | .eq => byteCmp as bs | o => o).swap
      rw [compareSwapEq a b]
      cases compare a b with
      | eq => exact ih bs
      | lt => rfl
      | gt => rfl

theorem byteCmp_self (xs : ByteString) : byteCmp xs xs = .eq := by
  induction xs with
  | nil => rfl
  | cons a as ih =>
    show (match compare a a with | .eq => byteCmp as as | o => o) = .eq
    rw [compareSelfEq a]
    exact ih

theorem swap_ne_lt {o : Ordering} (h : o ≠ .gt) : o.swap ≠ .lt := by
  cases o <;> simp_all [Ordering.swap]

theorem ne_gt_of_swap_ne_lt {o : Ordering} (h : o.swap ≠ .lt) : o ≠ .gt := by
  cases o <;> simp_all [Ordering.swap]

theorem byteCmp_ne_lt_trans (xs : ByteString) :
    ∀ ys zs, byteCmp xs ys ≠ .lt → byteCmp ys zs ≠ .lt → byteCmp xs zs ≠ .lt := by
  induction xs with
  | nil =>
    intro ys zs h1 h2
    cases ys with
    | nil => exact h2
    | cons b bs => exact absurd rfl h1
  | cons a as ih =>
    intro ys zs h1 h2
    cases zs with
    | nil =>
      intro h
      rw [show byteCmp (a :: as) [] = .gt from rfl] at h
      exact Ordering.noConfusion h
    | cons c cs =>
      cases ys with
      | nil => exact absurd rfl h2
      | cons b bs =>
        show (match compare a c with | .eq => byteCmp as cs | o => o) ≠ .lt
        have h1s : (match compare a b with | .eq => byteCmp as bs | o => o) ≠ .lt := h1
        have h2s : (match compare b c with | .eq => byteCmp bs cs | o => o) ≠ .lt := h2
        rcases hab : compare a b with _ | _ | _ <;> rw [hab] at h1s
        · exact absurd rfl h1s
        · have hab2 : a = b := compare_eq_iff_eq.1 hab
          subst hab2
          rcases hbc : compare a c with _ | _ | _ <;> rw [hbc] at h2s
          · exact absurd rfl h2s
          · exact ih bs cs h1s h2s
          · simp
        · rcases hbc : compare b c with _ | _ | _ <;> rw [hbc] at h2s
          · exact absurd rfl h2s
          · have hbc2 : b = c := compare_eq_iff_eq.1 hbc
            subst hbc2
            rw [hab]
            simp
          · have hac : compare a c = .gt :=
              compare_gt_iff_gt.2 (lt_trans (compare_gt_iff_gt.1 hbc) (compare_gt_iff_gt.1 hab))
            rw [hac]
            simp

theorem byteCmp_ne_trans (X : Ordering) (hX : X = .lt ∨ X = .gt) (xs ys zs : ByteString)
    (h1 : byteCmp xs ys ≠ X) (h2 : byteCmp ys zs ≠ X) : byteCmp xs zs ≠ X := by
  rcases hX with rfl | rfl
  · exact byteCmp_ne_lt_trans xs ys zs h1 h2
  · have h1s : byteCmp ys xs ≠ .lt := by
      rw [byteCmp_swap xs ys]
      exact swap_ne_lt h1
    have h2s : byteCmp zs ys ≠ .lt := by
      rw [byteCmp_swap ys zs]
      exact swap_ne_lt h2
    have h3 := byteCmp_ne_lt_trans zs ys xs h2s h1s
    rw [byteCmp_swap xs zs] at h3
    exact ne_gt_of_swap_ne_lt h3

/-- C1.  Null propagation in comparison: for every value `v` of any variant,
both `v.sql_cmp(Null)` and `Null.sql_cmp(v)` return `Ok(None)` - no ordering
and no error. -/
theorem claim_C1_null_propagation (v : Value) :
    Value.sql_cmp v .Null = .ok none ∧ Value.sql_cmp .Null v = .ok none :=
  ⟨sql_cmp_null_right v, sql_cmp_null_left v⟩

/-- C7.  Cross-variant comparison strictness: two non-Null values of different
variants always compare to the `InvalidArguments` error, never to an
ordering. -/
theorem claim_C7_cross_variant (v w : Value) (hv : v ≠ .Null) (hw : w ≠ .Null)
    (ht : v.tag ≠ w.tag) :
    ∃ msg, Value.sql_cmp v w = .error (.InvalidArguments msg) := by
  cases v <;> cases w <;>
    first
      | exact absurd rfl hv
      | exact absurd rfl hw
      | exact absurd rfl ht
      | exact ⟨_, rfl⟩

/-- Witness for C7 at a number and a byte string. -/
theorem claim_C7_cross_variant_witness :
    (Value.Number (.int 1) ≠ .Null) ∧ (Value.Bytes [] ≠ .Null) ∧
      (Value.tag (.Number (.int 1)) ≠ Value.tag (.Bytes [])) ∧
      ∃ msg, Value.sql_cmp (.Number (.int 1)) (.Bytes []) = .error (.InvalidArguments msg) :=
  ⟨fun h => Value.noConfusion h, fun h => Value.noConfusion h, by decide,
    claim_C7_cross_variant (.Number (.int 1)) (.Bytes []) (fun h => Value.noConfusion h)
      (fun h => Value.noConfusion h) (by decide)⟩

theorem natAbs_tmod_lt (a b : Int) (hb : b ≠ 0) : (a.tmod b).natAbs < b.natAbs := by
  cases a with
  | ofNat m =>
    cases b with
    | ofNat n =>
      have hn : 0 < n := by
        rcases Nat.eq_zero_or_pos n with h | h
        · exact absurd (by simp [h]) hb
        · exact h
      simpa [Int.tmod] using Nat.mod_lt m hn
    | negSucc n =>
      simpa [Int.tmod] using Nat.mod_lt m (Nat.succ_pos n)
  | negSucc m =>
    cases b with
    | ofNat n =>
      have hn : 0 < n := by
        rcases Nat.eq_zero_or_pos n with h | h
        · exact absurd (by simp [h]) hb
        · exact h
      simpa [Int.tmod] using Nat.mod_lt m.succ hn
    | negSucc n =>
      simpa [Int.tmod] using Nat.mod_lt m.succ (Nat.succ_pos n)

/-- C4.  Interval remainder is total: `sql_rem` on two intervals never errors,
a zero divisor yields `Null`, a `-1` divisor yields `Interval(0)` (covering
`lhs = i64::MIN`, where `lhs % -1` would overflow), and any other divisor
yields the remainder truncated toward zero; on i64-ranged inputs the result
stays in i64 range, so the operation cannot overflow. -/
theorem claim_C4_interval_rem (lhs rhs : Int) :
    Value.sql_rem (.Interval lhs) (.Interval rhs) =
      .ok (if rhs = 0 then .Null else if rhs = -1 then .Interval 0
           else .Interval (lhs.tmod rhs)) ∧
    (-(2 ^ 63) ≤ lhs → lhs < 2 ^ 63 → -(2 ^ 63) ≤ rhs → rhs < 2 ^ 63 →
      Value.sql_rem (.Interval lhs) (.Interval rhs) = .ok .Null ∨
      ∃ i, Value.sql_rem (.Interval lhs) (.Interval rhs) = .ok (.Interval i) ∧
        -(2 ^ 63) ≤ i ∧ i < 2 ^ 63) := by
  constructor
  · show (if rhs = 0 then (.ok .Null : Except Error Value)
        else if rhs = -1 then .ok (.Interval 0) else .ok (.Interval (lhs.tmod rhs))) = _
    split_ifs <;> rfl
  · intro hl1 hl2 hr1 hr2
    by_cases h0 : rhs = 0
    · left
      show (if rhs = 0 then (.ok .Null : Except Error Value)
          else if rhs = -1 then .ok (.Interval 0) else .ok (.Interval (lhs.tmod rhs))) = _
      rw [if_pos h0]
    · right
      by_cases h1 : rhs = -1
      · refine ⟨0, ?_, by norm_num, by norm_num⟩
        show (if rhs = 0 then (.ok .Null : Except Error Value)
            else if rhs = -1 then .ok (.Interval 0) else .ok (.Interval (lhs.tmod rhs))) = _
        rw [if_neg h0, if_pos h1]
      · refine ⟨lhs.tmod rhs, ?_, ?_, ?_⟩
        · show (if rhs = 0 then (.ok .Null : Except Error Value)
              else if rhs = -1 then .ok (.Interval 0) else .ok (.Interval (lhs.tmod rhs))) = _
          rw [if_neg h0, if_neg h1]
        · have h := natAbs_tmod_lt lhs rhs h0
          omega
        · have h := natAbs_tmod_lt lhs rhs h0
          omega

/-- Witness for C4 at `lhs = i64::MIN`, `rhs = -1`: the result is
`Interval(0)` and in range. -/
theorem claim_C4_interval_rem_witness :
    Value.sql_rem (.Interval (-(2 ^ 63))) (.Interval (-1)) = .ok (.Interval 0) ∧
      (Value.sql_rem (.Interval (-(2 ^ 63))) (.Interval (-1)) = .ok .Null ∨
        ∃ i, Value.sql_rem (.Interval (-(2 ^ 63))) (.Interval (-1)) = .ok (.Interval i) ∧
          -(2 ^ 63) ≤ i ∧ i < 2 ^ 63) :=
  ⟨by norm_num [Value.sql_rem],
    (claim_C4_interval_rem (-(2 ^ 63)) (-1)).2 (by norm_num) (by norm_num) (by norm_num)
      (by norm_num)⟩

theorem concatLoop_clean (values : List Value) :
    ∀ res, (∀ x ∈ values, x ≠ .Null ∧ x.tag ≠ .tArray) →
      concatLoop res values = .ok (.Bytes (res ++ (values.map Value.concatBytes).flatten)) := by
  induction values with
  | nil => intro res _; simp [concatLoop]
  | cons a rest ih =>
    intro res h
    have ha := h a (List.mem_cons_self a rest)
    have hrest : ∀ x ∈ rest, x ≠ .Null ∧ x.tag ≠ .tArray :=
      fun x hx => h x (List.mem_cons_of_mem a hx)
    cases a with
    | Null => exact absurd rfl ha.1
    | Array xs => exact absurd rfl ha.2
    | Number n =>
      rw [show concatLoop res (Value.Number n :: rest) =
        concatLoop (res ++ strBytes n.display) rest from rfl, ih _ hrest]
      simp [Value.concatBytes]
    | Bytes b =>
      rw [show concatLoop res (Value.Bytes b :: rest) = concatLoop (res ++ b) rest from rfl,
        ih _ hrest]
      simp [Value.concatBytes]
    | Timestamp t =>
      rw [show concatLoop res (Value.Timestamp t :: rest) =
        concatLoop (res ++ strBytes (formatTimestamp t)) rest from rfl, ih _ hrest]
      simp [Value.concatBytes]
    | Interval i =>
      rw [show concatLoop res (Value.Interval i :: rest) =
        concatLoop (res ++ strBytes ("INTERVAL " ++ toString i ++ " MICROSECOND")) rest from rfl,
        ih _ hrest]
      simp [Value.concatBytes]

theorem concatLoop_first_bad (pre : List Value) :
    ∀ res x rest, (∀ y ∈ pre, y ≠ .Null ∧ y.tag ≠ .tArray) →
      (x = .Null → concatLoop res (pre ++ x :: rest) = .ok .Null) ∧
      (x.tag = .tArray →
        concatLoop res (pre ++ x :: rest) =
          .error (.InvalidArguments "cannot concatenate arrays using || operator")) := by
  induction pre with
  | nil =>
    intro res x rest _
    constructor
    · rintro rfl; rfl
    · intro hx
      cases x <;> simp [Value.tag] at hx
      rfl
  | cons a pre ih =>
    intro res x rest h
    have ha := h a (List.mem_cons_self a pre)
    have hpre : ∀ y ∈ pre, y ≠ .Null ∧ y.tag ≠ .tArray :=
      fun y hy => h y (List.mem_cons_of_mem a hy)
    cases a with
    | Null => exact absurd rfl ha.1
    | Array xs => exact absurd rfl ha.2
    | Number n => exact ih (res ++ strBytes n.display) x rest hpre
    | Bytes b => exact ih (res ++ b) x rest hpre
    | Timestamp t => exact ih (res ++ strBytes (formatTimestamp t)) x rest hpre
    | Interval i =>
      exact ih (res ++ strBytes ("INTERVAL " ++ toString i ++ " MICROSECOND")) x rest hpre

/-- C3 (amended).  `sql_concat` scans its operands left to right: it returns
`Null` at the first `Null` and the `InvalidArguments` error at the first
`Array`, whichever comes first; when no operand is `Null` or an `Array`, every
operand is formatted with the fixed rules (`Value.concatBytes`: Number in
decimal, Timestamp in `TIMESTAMP_FORMAT`, Interval as
`INTERVAL <n> MICROSECOND`, Bytes raw) and the concatenation of the byte
strings is returned. -/
theorem claim_C3_concat (values : List Value) :
    ((∀ x ∈ values, x ≠ .Null ∧ x.tag ≠ .tArray) →
      Value.sql_concat values = .ok (.Bytes ((values.map Value.concatBytes).flatten))) ∧
    (∀ pre x rest, values = pre ++ x :: rest →
      (∀ y ∈ pre, y ≠ .Null ∧ y.tag ≠ .tArray) →
      (x = .Null → Value.sql_concat values = .ok .Null) ∧
      (x.tag = .tArray →
        Value.sql_concat values =
          .error (.InvalidArguments "cannot concatenate arrays using || operator"))) := by
  constructor
  · intro h
    rw [Value.sql_concat, concatLoop_clean values [] h]
    rfl
  · rintro pre x rest rfl hpre
    exact concatLoop_first_bad pre [] x rest hpre

/-- Counterexample for C3 as stated: in `sql_concat([Array([]), Null])` an
element is `Null`, yet the result is not `Null` (the array, scanned first,
raises the error). -/
theorem claim_C3_concat_counterexample :
    Value.Null ∈ [Value.Array [], Value.Null] ∧
      Value.sql_concat [Value.Array [], Value.Null] ≠ .ok Value.Null :=
  ⟨by simp, fun h => by
    rw [show Value.sql_concat [Value.Array [], Value.Null] =
      .error (.InvalidArguments "cannot concatenate arrays using || operator") from rfl] at h
    exact Except.noConfusion h⟩

/-- Witness for C3: `a || NULL || b` is `Null` and `a || 1 || b` is `a1b`. -/
theorem claim_C3_concat_witness :
    (∀ y ∈ [Value.Bytes [97]], y ≠ Value.Null ∧ y.tag ≠ .tArray) ∧
      Value.sql_concat [Value.Bytes [97], Value.Null, Value.Bytes [98]] = .ok .Null ∧
      (∀ x ∈ [Value.Bytes [97], Value.Number (.int 1), Value.Bytes [98]],
        x ≠ Value.Null ∧ x.tag ≠ .tArray) ∧
      Value.sql_concat [Value.Bytes [97], Value.Number (.int 1), Value.Bytes [98]] =
        .ok (.Bytes [97, 49, 98]) := by
  have hpre : ∀ y ∈ [Value.Bytes [97]], y ≠ Value.Null ∧ y.tag ≠ .tArray := by
    intro y hy
    simp only [List.mem_cons, List.not_mem_nil, or_false] at hy
    subst hy
    exact ⟨fun h => Value.noConfusion h, fun h => Tag.noConfusion h⟩
  have hall : ∀ x ∈ [Value.Bytes [97], Value.Number (.int 1), Value.Bytes [98]],
      x ≠ Value.Null ∧ x.tag ≠ .tArray := by
    intro x hx
    simp only [List.mem_cons, List.not_mem_nil, or_false] at hx
    rcases hx with rfl | rfl | rfl
    · exact ⟨fun h => Value.noConfusion h, fun h => Tag.noConfusion h⟩
    · exact ⟨fun h => Value.noConfusion h, fun h => Tag.noConfusion h⟩
    · exact ⟨fun h => Value.noConfusion h, fun h => Tag.noConfusion h⟩
  refine ⟨hpre, ?_, hall, ?_⟩
  · exact ((claim_C3_concat _).2 [Value.Bytes [97]] Value.Null [Value.Bytes [98]] rfl hpre).1 rfl
  · have h := (claim_C3_concat [Value.Bytes [97], Value.Number (.int 1), Value.Bytes [98]]).1 hall
    rw [h]
    rfl

theorem logicLoop_spec (identity : Bool) (args : List Value)
    (h : ∀ x ∈ args, ∃ b, x.as_nullable_bool = .ok b) :
    ∀ r : Option Bool,
      logicLoop identity r args =
        .ok (if ∃ x ∈ args, x.as_nullable_bool = .ok (some (!identity)) then
               Value.ofBool (!identity)
             else if ∃ x ∈ args, x.as_nullable_bool = .ok none then .Null
             else Value.ofOptBool r) := by
  induction args with
  | nil => intro r; simp [logicLoop]
  | cons a rest ih =>
    intro r
    obtain ⟨b, hb⟩ := h a (List.mem_cons_self a rest)
    have hrest : ∀ x ∈ rest, ∃ b, x.as_nullable_bool = .ok b :=
      fun x hx => h x (List.mem_cons_of_mem a hx)
    have step : logicLoop identity r (a :: rest) =
        match a.as_nullable_bool with
        | .error e => .error e
        | .ok (some v) =>
          if v = identity then logicLoop identity r rest else .ok (Value.ofBool v)
        | .ok none => logicLoop identity none rest := rfl
    match b, hb with
    | some v, hb =>
      by_cases hv : v = identity
      · subst hv
        rw [step, hb]
        simp only [if_pos rfl]
        rw [ih hrest r]
        have hnotdec : (a.as_nullable_bool = Except.ok (some !v)) = False := by
          simp [hb]
        have hnotnull : (a.as_nullable_bool = Except.ok none) = False := by
          simp [hb]
        simp [List.mem_cons, hnotdec, hnotnull]
      · have hv2 : v = !identity := by
          cases v <;> cases identity <;> simp_all
        subst hv2
        rw [step, hb]
        have : ((!identity) = identity) = False := by cases identity <;> simp
        simp only [this, if_false]
        have hdec : ∃ x ∈ a :: rest, x.as_nullable_bool = .ok (some (!identity)) :=
          ⟨a, List.mem_cons_self a rest, hb⟩
        rw [if_pos hdec]
    | none, hb =>
      rw [step, hb, ih hrest none]
      have hnotdec : (a.as_nullable_bool = Except.ok (some !identity)) = False := by
        simp [hb]
      by_cases hd : ∃ x ∈ rest, x.as_nullable_bool = .ok (some (!identity))
      · have hd2 : ∃ x ∈ a :: rest, x.as_nullable_bool = .ok (some (!identity)) :=
          ⟨hd.choose, List.mem_cons_of_mem a hd.choose_spec.1, hd.choose_spec.2⟩
        rw [if_pos hd, if_pos hd2]
      · have hd2 : ¬∃ x ∈ a :: rest, x.as_nullable_bool = .ok (some (!identity)) := by
          simp only [List.mem_cons]
          rintro ⟨x, hx | hx, hx2⟩
          · subst hx; simp [hb] at hx2
          · exact hd ⟨x, hx, hx2⟩
        rw [if_neg hd, if_neg hd2]
        have hnull : ∃ x ∈ a :: rest, x.as_nullable_bool = .ok none :=
          ⟨a, List.mem_cons_self a rest, hb⟩
        rw [if_pos hnull]
        by_cases hn : ∃ x ∈ rest, x.as_nullable_bool = .ok none
        · rw [if_pos hn]
        · rw [if_neg hn]
          rfl

/-- C2.  Three-valued variadic logic on convertible constant arguments: AND
returns FALSE when some argument converts to false, else Null when some
argument converts to null, else TRUE; OR mirrors this with TRUE and FALSE
exchanged; and both results are invariant under permutation of the
arguments. -/
theorem claim_C2_variadic_logic (args : List Value)
    (h : ∀ x ∈ args, ∃ b, x.as_nullable_bool = .ok b) :
    ((∃ x ∈ args, x.as_nullable_bool = .ok (some false)) →
      AND.compile args = .ok (.Constant (Value.ofBool false))) ∧
    (¬(∃ x ∈ args, x.as_nullable_bool = .ok (some false)) →
      (∃ x ∈ args, x.as_nullable_bool = .ok none) →
      AND.compile args = .ok (.Constant .Null)) ∧
    (¬(∃ x ∈ args, x.as_nullable_bool = .ok (some false)) →
      ¬(∃ x ∈ args, x.as_nullable_bool = .ok none) →
      AND.compile args = .ok (.Constant (Value.ofBool true))) ∧
    ((∃ x ∈ args, x.as_nullable_bool = .ok (some true)) →
      OR.compile args = .ok (.Constant (Value.ofBool true))) ∧
    (¬(∃ x ∈ args, x.as_nullable_bool = .ok (some true)) →
      (∃ x ∈ args, x.as_nullable_bool = .ok none) →
      OR.compile args = .ok (.Constant .Null)) ∧
    (¬(∃ x ∈ args, x.as_nullable_bool = .ok (some true)) →
      ¬(∃ x ∈ args, x.as_nullable_bool = .ok none) →
      OR.compile args = .ok (.Constant (Value.ofBool false))) ∧
    (∀ args2, args.Perm args2 →
      AND.compile args = AND.compile args2 ∧ OR.compile args = OR.compile args2) := by
  have handc : ∀ (L : Logic) (l : List Value), (∀ x ∈ l, ∃ b, x.as_nullable_bool = .ok b) →
      L.compile l =
        .ok (.Constant (if ∃ x ∈ l, x.as_nullable_bool = .ok (some (!L.identity)) then
            Value.ofBool (!L.identity)
          else if ∃ x ∈ l, x.as_nullable_bool = .ok none then .Null
          else Value.ofBool L.identity)) := by
    intro L l hl
    rw [Logic.compile, logicLoop_spec L.identity l hl (some L.identity)]
    by_cases h1 : ∃ x ∈ l, x.as_nullable_bool = .ok (some (!L.identity))
    · rw [if_pos h1, if_pos h1]; rfl
    · rw [if_neg h1, if_neg h1]
      by_cases h2 : ∃ x ∈ l, x.as_nullable_bool = .ok none
      · rw [if_pos h2, if_pos h2]; rfl
      · rw [if_neg h2, if_neg h2]; rfl
  have hAND := handc AND args h
  have hOR := handc OR args h
  simp only [show AND.identity = true from rfl, Bool.not_true] at hAND
  simp only [show OR.identity = false from rfl, Bool.not_false] at hOR
  refine ⟨?_, ?_, ?_, ?_, ?_, ?_, ?_⟩
  · intro h1
    rw [hAND, if_pos h1]
  · intro h1 h2
    rw [hAND, if_neg h1, if_pos h2]
  · intro h1 h2
    rw [hAND, if_neg h1, if_neg h2]
  · intro h1
    rw [hOR, if_pos h1]
  · intro h1 h2
    rw [hOR, if_neg h1, if_pos h2]
  · intro h1 h2
    rw [hOR, if_neg h1, if_neg h2]
  · intro args2 hperm
    have h2 : ∀ x ∈ args2, ∃ b, x.as_nullable_bool = .ok b :=
      fun x hx => h x (hperm.mem_iff.2 hx)
    constructor
    · rw [handc AND args h, handc AND args2 h2]
      have e1 : (∃ x ∈ args, x.as_nullable_bool = .ok (some (!AND.identity))) ↔
          (∃ x ∈ args2, x.as_nullable_bool = .ok (some (!AND.identity))) := by
        constructor <;> rintro ⟨x, hx, hx2⟩
        · exact ⟨x, hperm.mem_iff.1 hx, hx2⟩
        · exact ⟨x, hperm.mem_iff.2 hx, hx2⟩
      have e2 : (∃ x ∈ args, x.as_nullable_bool = .ok none) ↔
          (∃ x ∈ args2, x.as_nullable_bool = .ok none) := by
        constructor <;> rintro ⟨x, hx, hx2⟩
        · exact ⟨x, hperm.mem_iff.1 hx, hx2⟩
        · exact ⟨x, hperm.mem_iff.2 hx, hx2⟩
      rw [if_congr e1 rfl rfl, if_congr e2 rfl rfl]
    · rw [handc OR args h, handc OR args2 h2]
      have e1 : (∃ x ∈ args, x.as_nullable_bool = .ok (some (!OR.identity))) ↔
          (∃ x ∈ args2, x.as_nullable_bool = .ok (some (!OR.identity))) := by
        constructor <;> rintro ⟨x, hx, hx2⟩
        · exact ⟨x, hperm.mem_iff.1 hx, hx2⟩
        · exact ⟨x, hperm.mem_iff.2 hx, hx2⟩
      have e2 : (∃ x ∈ args, x.as_nullable_bool = .ok none) ↔
          (∃ x ∈ args2, x.as_nullable_bool = .ok none) := by
        constructor <;> rintro ⟨x, hx, hx2⟩
        · exact ⟨x, hperm.mem_iff.1 hx, hx2⟩
        · exact ⟨x, hperm.mem_iff.2 hx, hx2⟩
      rw [if_congr e1 rfl rfl, if_congr e2 rfl rfl]

/-- Witness for C2 at `[1, NULL]`: AND gives Null, OR gives TRUE. -/
theorem claim_C2_variadic_logic_witness :
    (∀ x ∈ [Value.Number (.int 1), Value.Null], ∃ b, x.as_nullable_bool = .ok b) ∧
      AND.compile [Value.Number (.int 1), Value.Null] = .ok (.Constant .Null) ∧
      OR.compile [Value.Number (.int 1), Value.Null] =
        .ok (.Constant (Value.ofBool true)) := by
  have h : ∀ x ∈ [Value.Number (.int 1), Value.Null], ∃ b, x.as_nullable_bool = .ok b := by
    intro x hx
    simp only [List.mem_cons, List.not_mem_nil, or_false] at hx
    rcases hx with rfl | rfl
    · exact ⟨some true, rfl⟩
    · exact ⟨none, rfl⟩
  have hc := claim_C2_variadic_logic [Value.Number (.int 1), Value.Null] h
  refine ⟨h, ?_, ?_⟩
  · refine hc.2.1 ?_ ?_
    · rintro ⟨x, hx, hx2⟩
      simp only [List.mem_cons, List.not_mem_nil, or_false] at hx
      rcases hx with rfl | rfl
      · rw [show (Value.Number (.int 1)).as_nullable_bool = .ok (some true) from rfl] at hx2
        simp at hx2
      · rw [show Value.Null.as_nullable_bool = .ok none from rfl] at hx2
        simp at hx2
    · exact ⟨Value.Null, by simp, rfl⟩
  · exact hc.2.2.2.1 ⟨Value.Number (.int 1), by simp, rfl⟩

theorem logicLoop_early (identity : Bool) (pre : List Value) :
    ∀ (r : Option Bool) (d : Value) (post : List Value),
      (∀ x ∈ pre, ∃ b, x.as_nullable_bool = .ok b) →
      d.as_nullable_bool = .ok (some (!identity)) →
      logicLoop identity r (pre ++ d :: post) = .ok (Value.ofBool (!identity)) := by
  induction pre with
  | nil =>
    intro r d post _ hd
    have step : logicLoop identity r (d :: post) =
        match d.as_nullable_bool with
        | .error e => .error e
        | .ok (some v) =>
          if v = identity then logicLoop identity r post else .ok (Value.ofBool v)
        | .ok none => logicLoop identity none post := rfl
    rw [List.nil_append, step, hd]
    have : ((!identity) = identity) = False := by cases identity <;> simp
    simp only [this, if_false]
  | cons a pre ih =>
    intro r d post h hd
    obtain ⟨b, hb⟩ := h a (List.mem_cons_self a pre)
    have hpre : ∀ x ∈ pre, ∃ b, x.as_nullable_bool = .ok b :=
      fun x hx => h x (List.mem_cons_of_mem a hx)
    have step : logicLoop identity r ((a :: pre) ++ d :: post) =
        match a.as_nullable_bool with
        | .error e => .error e
        | .ok (some v) =>
          if v = identity then logicLoop identity r (pre ++ d :: post)
          else .ok (Value.ofBool v)
        | .ok none => logicLoop identity none (pre ++ d :: post) := rfl
    match b, hb with
    | some v, hb =>
      by_cases hv : v = identity
      · subst hv
        rw [step, hb]
        simp only [if_pos rfl]
        exact ih r d post hpre hd
      · have hv2 : v = !identity := by cases v <;> cases identity <;> simp_all
        subst hv2
        rw [step, hb]
        have : ((!identity) = identity) = False := by cases identity <;> simp
        simp only [this, if_false]
    | none, hb =>
      rw [step, hb]
      exact ih none d post hpre hd

/-- C9.  Lazy left-to-right conversion in AND/OR: when a decisive argument (one
converting to the negation of the identity) is preceded only by convertible
arguments, the function returns that decisive boolean whatever follows - in
particular a later argument of unconvertible type never raises its
`UnexpectedValueType` error. -/
theorem claim_C9_lazy_logic (L : Logic) (pre : List Value) (d : Value) (post : List Value)
    (hpre : ∀ x ∈ pre, ∃ b, x.as_nullable_bool = .ok b)
    (hd : d.as_nullable_bool = .ok (some (!L.identity))) :
    L.compile (pre ++ d :: post) = .ok (.Constant (Value.ofBool (!L.identity))) := by
  rw [Logic.compile, logicLoop_early L.identity pre (some L.identity) d post hpre hd]
  rfl

/-- Witness for C9: `AND(7, 0, bytes)` returns FALSE although the byte-string
argument is not convertible to a boolean. -/
theorem claim_C9_lazy_logic_witness :
    (∀ x ∈ [Value.Number (.int 7)], ∃ b, x.as_nullable_bool = .ok b) ∧
      (Value.Number (.int 0)).as_nullable_bool = .ok (some (!AND.identity)) ∧
      (∃ e, (Value.Bytes [120]).as_nullable_bool = .error e) ∧
      AND.compile [Value.Number (.int 7), Value.Number (.int 0), Value.Bytes [120]] =
        .ok (.Constant (Value.ofBool false)) := by
  have hpre : ∀ x ∈ [Value.Number (.int 7)], ∃ b, x.as_nullable_bool = .ok b := by
    intro x hx
    simp only [List.mem_cons, List.not_mem_nil, or_false] at hx
    subst hx
    exact ⟨some true, rfl⟩
  refine ⟨hpre, rfl, ⟨_, rfl⟩, ?_⟩
  exact claim_C9_lazy_logic AND [Value.Number (.int 7)] (Value.Number (.int 0))
    [Value.Bytes [120]] hpre rfl

theorem extremumLoop_cons (order : Ordering) (res v : Value) (rest : List Value) :
    extremumLoop order res (v :: rest) =
      match v.sql_cmp res with
      | .error e => .error e
      | .ok (some o) => extremumLoop order (if o = order then v else res) rest
      | .ok none => extremumLoop order (if res.isNull then v else res) rest := rfl

theorem extremumLoop_allNull (order : Ordering) (args : List Value)
    (h : ∀ x ∈ args, x = Value.Null) : extremumLoop order .Null args = .ok .Null := by
  induction args with
  | nil => rfl
  | cons a rest ih =>
    have ha := h a (List.mem_cons_self a rest)
    subst ha
    have step : extremumLoop order .Null (Value.Null :: rest) =
        extremumLoop order .Null rest := rfl
    rw [step]
    exact ih fun x hx => h x (List.mem_cons_of_mem _ hx)

theorem extremumLoop_ge (P : Value → Prop) (vcmp : Value → Value → Ordering)
    (hPnull : ∀ a, P a → a ≠ Value.Null)
    (hcmp : ∀ a b, P a → P b → Value.sql_cmp a b = .ok (some (vcmp a b)))
    (hswap : ∀ a b, P a → P b → vcmp b a = (vcmp a b).swap)
    (hself : ∀ a, P a → vcmp a a = .eq)
    (htr : ∀ X, (X = .lt ∨ X = .gt) → ∀ a b c, P a → P b → P c →
      vcmp a b ≠ X → vcmp b c ≠ X → vcmp a c ≠ X)
    (order : Ordering) (hord : order = .gt ∨ order = .lt) (args : List Value) :
    ∀ res : Value,
      (∀ x ∈ args, x = Value.Null ∨ P x) →
      (res = Value.Null ∨ P res) →
      ∃ v, extremumLoop order res args = .ok v ∧
        (v ∈ args ∨ v = res) ∧
        (v = Value.Null → res = Value.Null ∧ ∀ x ∈ args, x = Value.Null) ∧
        (∀ x ∈ args, P x → vcmp v x ≠ order.swap) ∧
        (P res → vcmp v res ≠ order.swap) := by
  have hswapmem : order.swap = .lt ∨ order.swap = .gt := by
    rcases hord with rfl | rfl
    · left; rfl
    · right; rfl
  have hne : order.swap ≠ order := by
    rcases hord with rfl | rfl <;> intro h <;> exact Ordering.noConfusion h
  have heqne : Ordering.eq ≠ order.swap := by
    rcases hord with rfl | rfl <;> intro h <;> exact Ordering.noConfusion h
  induction args with
  | nil =>
    intro res _ hres
    refine ⟨res, rfl, Or.inr rfl, fun hv => ⟨hv, by simp⟩, by simp, ?_⟩
    intro hPres
    rw [hself res hPres]
    exact heqne
  | cons a rest ih =>
    intro res hargs hres
    have hrest : ∀ x ∈ rest, x = Value.Null ∨ P x :=
      fun x hx => hargs x (List.mem_cons_of_mem a hx)
    rcases hargs a (List.mem_cons_self a rest) with rfl | hPa
    · -- the head is Null: the accumulator survives unchanged
      have hif : (if res.isNull then Value.Null else res) = res := by
        cases res <;> rfl
      have step : extremumLoop order res (Value.Null :: rest) = extremumLoop order res rest := by
        rw [extremumLoop_cons, sql_cmp_null_left res]
        show extremumLoop order (if res.isNull then Value.Null else res) rest = _
        rw [hif]
      obtain ⟨v, hv, hmem, hnull, hge, hgeres⟩ := ih res hrest hres
      refine ⟨v, by rw [step]; exact hv, ?_, ?_, ?_, hgeres⟩
      · rcases hmem with hm | rfl
        · exact Or.inl (List.mem_cons_of_mem _ hm)
        · exact Or.inr rfl
      · intro hvn
        obtain ⟨h1, h2⟩ := hnull hvn
        exact ⟨h1, by
          intro x hx
          rcases List.mem_cons.1 hx with rfl | hx2
          · rfl
          · exact h2 x hx2⟩
      · intro x hx hPx
        rcases List.mem_cons.1 hx with rfl | hx2
        · exact absurd rfl (hPnull _ hPx)
        · exact hge x hx2 hPx
    · -- the head satisfies P
      rcases hres with rfl | hPres
      · -- Null accumulator is replaced by the head
        have step : extremumLoop order Value.Null (a :: rest) = extremumLoop order a rest := by
          rw [extremumLoop_cons, sql_cmp_null_right a]
          exact rfl
        obtain ⟨v, hv, hmem, hnull, hge, hgea⟩ := ih a hrest (Or.inr hPa)
        have hvnn : v ≠ Value.Null := by
          intro hvn
          exact absurd (hnull hvn).1 (hPnull a hPa)
        refine ⟨v, by rw [step]; exact hv, ?_, fun hvn => absurd hvn hvnn, ?_, ?_⟩
        · rcases hmem with hm | rfl
          · exact Or.inl (List.mem_cons_of_mem _ hm)
          · exact Or.inl (List.mem_cons_self _ _)
        · intro x hx hPx
          rcases List.mem_cons.1 hx with rfl | hx2
          · exact hgea hPa
          · exact hge x hx2 hPx
        · intro hPn
          exact absurd rfl (hPnull _ hPn)
      · -- both the head and the accumulator satisfy P: compare them
        have hc := hcmp a res hPa hPres
        by_cases ho : vcmp a res = order
        · have step : extremumLoop order res (a :: rest) = extremumLoop order a rest := by
            rw [extremumLoop_cons, hc]
            show extremumLoop order (if vcmp a res = order then a else res) rest = _
            rw [if_pos ho]
          obtain ⟨v, hv, hmem, hnull, hge, hgea⟩ := ih a hrest (Or.inr hPa)
          have hvnn : v ≠ Value.Null := by
            intro hvn
            exact absurd (hnull hvn).1 (hPnull a hPa)
          have hPv : P v := by
            rcases hmem with hm | rfl
            · rcases hrest v hm with rfl | h
              · exact absurd rfl hvnn
              · exact h
            · exact hPa
          refine ⟨v, by rw [step]; exact hv, ?_, fun hvn => absurd hvn hvnn, ?_, ?_⟩
          · rcases hmem with hm | rfl
            · exact Or.inl (List.mem_cons_of_mem _ hm)
            · exact Or.inl (List.mem_cons_self _ _)
          · intro x hx hPx
            rcases List.mem_cons.1 hx with rfl | hx2
            · exact hgea hPa
            · exact hge x hx2 hPx
          · intro _
            have h1 : vcmp v a ≠ order.swap := hgea hPa
            have h2 : vcmp a res ≠ order.swap := by
              rw [ho]
              exact fun h => hne h.symm
            exact htr order.swap hswapmem v a res hPv hPa hPres h1 h2
        · have step : extremumLoop order res (a :: rest) = extremumLoop order res rest := by
            rw [extremumLoop_cons, hc]
            show extremumLoop order (if vcmp a res = order then a else res) rest = _
            rw [if_neg ho]
          obtain ⟨v, hv, hmem, hnull, hge, hgeres⟩ := ih res hrest (Or.inr hPres)
          have hvnn : v ≠ Value.Null := by
            intro hvn
            exact absurd (hnull hvn).1 (hPnull res hPres)
          have hPv : P v := by
            rcases hmem with hm | rfl
            · rcases hrest v hm with rfl | h
              · exact absurd rfl hvnn
              · exact h
            · exact hPres
          refine ⟨v, by rw [step]; exact hv, ?_, fun hvn => absurd hvn hvnn, ?_, hgeres⟩
          · rcases hmem with hm | rfl
            · exact Or.inl (List.mem_cons_of_mem _ hm)
            · exact Or.inr rfl
          · intro x hx hPx
            rcases List.mem_cons.1 hx with rfl | hx2
            · have h1 : vcmp v res ≠ order.swap := hgeres hPres
              have h2 : vcmp res x ≠ order.swap := by
                rw [hswap x res hPx hPres]
                intro h
                exact ho (Ordering.swap_inj.1 h)
              exact htr order.swap hswapmem v res x hPv hPres hPx h1 h2
            · exact hge x hx2 hPx

theorem sql_cmp_number_key (a b : Value) (ha : a.tag = .tNumber) (hb : b.tag = .tNumber) :
    Value.sql_cmp a b = .ok (some (compare (numKey a) (numKey b))) := by
  cases a <;> cases b <;>
    first
      | exact Tag.noConfusion ha
      | exact Tag.noConfusion hb
      | rfl

theorem sql_cmp_bytes_key (a b : Value) (ha : a.tag = .tBytes) (hb : b.tag = .tBytes) :
    Value.sql_cmp a b = .ok (some (byteCmp (bytesKey a) (bytesKey b))) := by
  cases a <;> cases b <;>
    first
      | exact Tag.noConfusion ha
      | exact Tag.noConfusion hb
      | rfl

theorem sql_cmp_ts_key (a b : Value) (ha : a.tag = .tTimestamp) (hb : b.tag = .tTimestamp) :
    Value.sql_cmp a b = .ok (some (compare (tsKey a) (tsKey b))) := by
  cases a <;> cases b <;>
    first
      | exact Tag.noConfusion ha
      | exact Tag.noConfusion hb
      | rfl

theorem sql_cmp_iv_key (a b : Value) (ha : a.tag = .tInterval) (hb : b.tag = .tInterval) :
    Value.sql_cmp a b = .ok (some (compare (ivKey a) (ivKey b))) := by
  cases a <;> cases b <;>
    first
      | exact Tag.noConfusion ha
      | exact Tag.noConfusion hb
      | rfl

theorem tag_ne_null (t : Tag) (ht : t ≠ .tNull) (a : Value) (ha : a.tag = t) :
    a ≠ Value.Null := by
  intro h
  subst h
  exact ht ha.symm

theorem extremum_compile_spec (P : Value → Prop) (vcmp : Value → Value → Ordering)
    (hPnull : ∀ a, P a → a ≠ Value.Null)
    (hcmp : ∀ a b, P a → P b → Value.sql_cmp a b = .ok (some (vcmp a b)))
    (hswap : ∀ a b, P a → P b → vcmp b a = (vcmp a b).swap)
    (hself : ∀ a, P a → vcmp a a = .eq)
    (htr : ∀ X, (X = .lt ∨ X = .gt) → ∀ a b c, P a → P b → P c →
      vcmp a b ≠ X → vcmp b c ≠ X → vcmp a c ≠ X)
    (E : Extremum) (hord : E.order = .gt ∨ E.order = .lt) (args : List Value)
    (hargs : ∀ x ∈ args, x = Value.Null ∨ P x) (hex : ∃ x ∈ args, x ≠ Value.Null) :
    ∃ v, E.compile args = .ok (.Constant v) ∧ v ∈ args ∧ v ≠ Value.Null ∧
      ∀ x ∈ args, x ≠ Value.Null →
        ∃ o, Value.sql_cmp v x = .ok (some o) ∧ o ≠ E.order.swap := by
  obtain ⟨v, hv, hmem, hnull, hge, _⟩ :=
    extremumLoop_ge P vcmp hPnull hcmp hswap hself htr E.order hord args .Null hargs
      (Or.inl rfl)
  obtain ⟨x0, hx0mem, hx0⟩ := hex
  have hvnn : v ≠ Value.Null := by
    intro hvn
    exact hx0 ((hnull hvn).2 x0 hx0mem)
  have hvmem : v ∈ args := by
    rcases hmem with hm | rfl
    · exact hm
    · exact absurd rfl hvnn
  have hPv : P v := by
    rcases hargs v hvmem with rfl | h
    · exact absurd rfl hvnn
    · exact h
  refine ⟨v, ?_, hvmem, hvnn, ?_⟩
  · rw [Extremum.compile, hv]
    rfl
  · intro x hx hxnn
    have hPx : P x := by
      rcases hargs x hx with rfl | h
      · exact absurd rfl hxnn
      · exact h
    exact ⟨vcmp v x, hcmp v x hPv hPx, hge x hx hPx⟩

/-- C6.  Variadic extremum: `greatest` and `least` (an `Extremum` whose target
order is `gt` or `lt`) return `Null` on an empty or all-Null argument list;
when every non-Null argument is of one comparable scalar variant, the result is
a non-Null argument that `sql_cmp` ranks no worse than every other non-Null
argument - any concrete value replaces `Null`. -/
theorem claim_C6_extremum (E : Extremum) (args : List Value)
    (hord : E.order = .gt ∨ E.order = .lt) :
    ((∀ x ∈ args, x = Value.Null) → E.compile args = .ok (.Constant .Null)) ∧
    (∀ t, (t = Tag.tNumber ∨ t = Tag.tBytes ∨ t = Tag.tTimestamp ∨ t = Tag.tInterval) →
      (∀ x ∈ args, x = Value.Null ∨ x.tag = t) →
      (∃ x ∈ args, x ≠ Value.Null) →
      ∃ v, E.compile args = .ok (.Constant v) ∧ v ∈ args ∧ v ≠ Value.Null ∧
        ∀ x ∈ args, x ≠ Value.Null →
          ∃ o, Value.sql_cmp v x = .ok (some o) ∧ o ≠ E.order.swap) := by
  constructor
  · intro h
    rw [Extremum.compile, extremumLoop_allNull E.order args h]
    rfl
  · intro t ht hargs hex
    rcases ht with rfl | rfl | rfl | rfl
    · exact extremum_compile_spec (fun v => v.tag = .tNumber)
        (fun a b => compare (numKey a) (numKey b))
        (tag_ne_null _ (fun h => Tag.noConfusion h))
        sql_cmp_number_key
        (fun a b _ _ => compareSwapEq (numKey a) (numKey b))
        (fun a _ => compareSelfEq (numKey a))
        (fun X hX a b c _ _ _ h1 h2 => compareNeTrans X hX _ _ _ h1 h2)
        E hord args hargs hex
    · exact extremum_compile_spec (fun v => v.tag = .tBytes)
        (fun a b => byteCmp (bytesKey a) (bytesKey b))
        (tag_ne_null _ (fun h => Tag.noConfusion h))
        sql_cmp_bytes_key
        (fun a b _ _ => byteCmp_swap (bytesKey a) (bytesKey b))
        (fun a _ => byteCmp_self (bytesKey a))
        (fun X hX a b c _ _ _ h1 h2 => byteCmp_ne_trans X hX _ _ _ h1 h2)
        E hord args hargs hex
    · exact extremum_compile_spec (fun v => v.tag = .tTimestamp)
        (fun a b => compare (tsKey a) (tsKey b))
        (tag_ne_null _ (fun h => Tag.noConfusion h))
        sql_cmp_ts_key
        (fun a b _ _ => compareSwapEq (tsKey a) (tsKey b))
        (fun a _ => compareSelfEq (tsKey a))
        (fun X hX a b c _ _ _ h1 h2 => compareNeTrans X hX _ _ _ h1 h2)
        E hord args hargs hex
    · exact extremum_compile_spec (fun v => v.tag = .tInterval)
        (fun a b => compare (ivKey a) (ivKey b))
        (tag_ne_null _ (fun h => Tag.noConfusion h))
        sql_cmp_iv_key
        (fun a b _ _ => compareSwapEq (ivKey a) (ivKey b))
        (fun a _ => compareSelfEq (ivKey a))
        (fun X hX a b c _ _ _ h1 h2 => compareNeTrans X hX _ _ _ h1 h2)
        E hord args hargs hex

/-- Witness for C6: `greatest(1, NULL, 3)` yields a greatest non-Null argument
(concretely 3), and `greatest(NULL, NULL)` yields `Null`. -/
theorem claim_C6_extremum_witness :
    GREATEST.compile [Value.Number (.int 1), Value.Null, Value.Number (.int 3)] =
        .ok (.Constant (Value.Number (.int 3))) ∧
      (∃ v, GREATEST.compile [Value.Number (.int 1), Value.Null, Value.Number (.int 3)] =
          .ok (.Constant v) ∧
        v ∈ [Value.Number (.int 1), Value.Null, Value.Number (.int 3)] ∧ v ≠ Value.Null ∧
        ∀ x ∈ [Value.Number (.int 1), Value.Null, Value.Number (.int 3)], x ≠ Value.Null →
          ∃ o, Value.sql_cmp v x = .ok (some o) ∧ o ≠ GREATEST.order.swap) ∧
      GREATEST.compile [Value.Null, Value.Null] = .ok (.Constant .Null) := by
  have hargs : ∀ x ∈ [Value.Number (.int 1), Value.Null, Value.Number (.int 3)],
      x = Value.Null ∨ x.tag = Tag.tNumber := by
    intro x hx
    simp only [List.mem_cons, List.not_mem_nil, or_false] at hx
    rcases hx with rfl | rfl | rfl
    · exact Or.inr rfl
    · exact Or.inl rfl
    · exact Or.inr rfl
  have hex : ∃ x ∈ [Value.Number (.int 1), Value.Null, Value.Number (.int 3)],
      x ≠ Value.Null :=
    ⟨Value.Number (.int 1), List.mem_cons_self _ _, fun h => Value.noConfusion h⟩
  have hc := claim_C6_extremum GREATEST
    [Value.Number (.int 1), Value.Null, Value.Number (.int 3)] (Or.inl rfl)
  refine ⟨rfl, hc.2 Tag.tNumber (Or.inl rfl) hargs hex, ?_⟩
  have hn := (claim_C6_extremum GREATEST [Value.Null, Value.Null] (Or.inl rfl)).1
  exact hn (by
    intro x hx
    simp only [List.mem_cons, List.not_mem_nil, or_false] at hx
    rcases hx with rfl | rfl <;> rfl)


theorem invocationLines_length (exe_suffix qsn extra : String) (rpf rpi : Nat) :
    ∀ (i : Nat) (ts : List Table),
      (invocationLines exe_suffix qsn extra rpf rpi i ts).length = ts.length := by
  intro i ts
  induction ts generalizing i with
  | nil => rfl
  | cons t ts ih =>
    show (invocationLine exe_suffix t.seed qsn i rpf rpi t.rows_count extra
      :: invocationLines exe_suffix qsn extra rpf rpi (i + 1) ts).length = ts.length + 1
    rw [List.length_cons, ih (i + 1)]

theorem filter_tablesLines (exe_suffix qsn extra : String) (rpf rpi : Nat) :
    ∀ (i : Nat) (ts : List Table),
      (∀ t ∈ ts, ∀ l ∈ t.schema_lines, isDbgenLine l = false) →
      (tablesLines exe_suffix qsn extra rpf rpi i ts).filter isDbgenLine =
        invocationLines exe_suffix qsn extra rpf rpi i ts := by
  intro i ts
  induction ts generalizing i with
  | nil => intro _; rfl
  | cons t ts ih =>
    intro h
    have hschema : ∀ l ∈ t.schema_lines, isDbgenLine l = false :=
      h t (List.mem_cons_self t ts)
    have hrest : ∀ t2 ∈ ts, ∀ l ∈ t2.schema_lines, isDbgenLine l = false :=
      fun t2 ht2 => h t2 (List.mem_cons_of_mem t ht2)
    have hcomment : isDbgenLine ("# table: s" ++ (toString i ++ (", rows count: " ++
        (toString t.rows_count ++ (", estimated size: " ++ t.size_str))))) = false := rfl
    have hinv : isDbgenLine
        (invocationLine exe_suffix t.seed qsn i rpf rpi t.rows_count extra) = true := rfl
    have hfs : t.schema_lines.filter isDbgenLine = [] :=
      List.filter_eq_nil_iff.2 fun l hl => by rw [hschema l hl]; exact Bool.false_ne_true
    show ((("# table: s" ++ (toString i ++ (", rows count: " ++ (toString t.rows_count ++
          (", estimated size: " ++ t.size_str)))))
        :: invocationLine exe_suffix t.seed qsn i rpf rpi t.rows_count extra
        :: t.schema_lines ++ ["SCHEMAEOF", ""]) ++
        tablesLines exe_suffix qsn extra rpf rpi (i + 1) ts).filter isDbgenLine = _
    rw [List.filter_append, List.filter_append, List.filter_cons, hcomment,
      List.filter_cons, hinv]
    simp only [Bool.false_eq_true, if_false, if_true, hfs, ih (i + 1) hrest]
    rfl

/-- C8 (amended).  Schema-synthesizer script shape: for every argument set (the
seed being explicit, so the table list is determined), the emitted script
starts with the `#!/bin/sh` line, contains `set -eu` as its fourth line, the
`echo CREATE SCHEMA` line (ending in `-schema-create.sql`) immediately follows
`set -eu`, the first non-comment non-blank line is `set -eu` (not the echo
line: the first non-comment line is the blank line closing the header), and
the lines starting with `dbgen` are exactly one invocation per generated
table, carrying the flags `-s <seed> -t <schema>.s<i> -R <rows-per-file>
-r <rows-per-insert> -N <rows-count>`. -/
theorem claim_C8_script_shape (version git_sha meta_seed qsn unique_name exe_suffix extra :
      String) (inserts_count rows_count : Nat) (tables : List Table) (L : List String)
    (hL : L = print_script version git_sha meta_seed qsn unique_name exe_suffix extra
      inserts_count rows_count tables)
    (hschema : ∀ t ∈ tables, ∀ l ∈ t.schema_lines, isDbgenLine l = false) :
    L.head? = some "#!/bin/sh" ∧
    L.get? 3 = some "set -eu" ∧
    L.get? 4 = some (echoLine qsn unique_name) ∧
    L.find? (fun l => !(isCommentLine l) && !(isBlankLine l)) = some "set -eu" ∧
    L.filter isDbgenLine =
      invocationLines exe_suffix qsn extra (rows_count * inserts_count) rows_count 0 tables ∧
    (L.filter isDbgenLine).length = tables.length := by
  subst hL
  have h0 : isDbgenLine "#!/bin/sh" = false := rfl
  have h1 : isDbgenLine ("# generated by dbschemagen v" ++ (version ++ (" (" ++ (git_sha ++
      ("), using seed " ++ meta_seed))))) = false := rfl
  have h2 : isDbgenLine "" = false := rfl
  have h3 : isDbgenLine "set -eu" = false := rfl
  have h4 : isDbgenLine (echoLine qsn unique_name) = false := rfl
  have hfilter : (print_script version git_sha meta_seed qsn unique_name exe_suffix extra
      inserts_count rows_count tables).filter isDbgenLine =
      invocationLines exe_suffix qsn extra (rows_count * inserts_count) rows_count 0
        tables := by
    show (["#!/bin/sh",
        "# generated by dbschemagen v" ++ (version ++ (" (" ++ (git_sha ++
          ("), using seed " ++ meta_seed)))),
        "", "set -eu", echoLine qsn unique_name, ""] ++
        tablesLines exe_suffix qsn extra (rows_count * inserts_count) rows_count 0
          tables).filter isDbgenLine = _
    rw [List.filter_append, List.filter_cons, h0, List.filter_cons, h1, List.filter_cons,
      h2, List.filter_cons, h3, List.filter_cons, h4, List.filter_cons, h2]
    simp only [Bool.false_eq_true, if_false, List.filter_nil, List.nil_append]
    exact filter_tablesLines exe_suffix qsn extra (rows_count * inserts_count) rows_count 0
      tables hschema
  refine ⟨rfl, rfl, rfl, rfl, hfilter, ?_⟩
  rw [hfilter]
  exact invocationLines_length exe_suffix qsn extra (rows_count * inserts_count)
    rows_count 0 tables

/-- Counterexample for C8 as stated: at a concrete argument set the first
non-comment line of the script is the blank line after the header (and the
first non-comment non-blank line is `set -eu`), not the
`echo CREATE SCHEMA` line. -/
theorem claim_C8_script_shape_counterexample :
    (print_script "1" "abc" "0" "x" "x" "" "" 1 1 []).find?
        (fun l => !(isCommentLine l)) = some "" ∧
      ("" : String) ≠ echoLine "x" "x" ∧
      (print_script "1" "abc" "0" "x" "x" "" "" 1 1 []).find?
        (fun l => !(isCommentLine l) && !(isBlankLine l)) = some "set -eu" ∧
      ("set -eu" : String) ≠ echoLine "x" "x" :=
  ⟨rfl, by decide, rfl, by decide⟩

/-- Witness for C8 at one concrete table. -/
theorem claim_C8_script_shape_witness :
    (∀ t ∈ [Table.mk "S" 5 "1.00 KiB" ["CREATE TABLE _ (", ");"]],
      ∀ l ∈ t.schema_lines, isDbgenLine l = false) ∧
      ((print_script "0.1" "abc" "7" "q" "q" "" "" 3 2
          [Table.mk "S" 5 "1.00 KiB" ["CREATE TABLE _ (", ");"]]).head? =
        some "#!/bin/sh" ∧
      (print_script "0.1" "abc" "7" "q" "q" "" "" 3 2
          [Table.mk "S" 5 "1.00 KiB" ["CREATE TABLE _ (", ");"]]).get? 3 =
        some "set -eu" ∧
      (print_script "0.1" "abc" "7" "q" "q" "" "" 3 2
          [Table.mk "S" 5 "1.00 KiB" ["CREATE TABLE _ (", ");"]]).get? 4 =
        some (echoLine "q" "q") ∧
      (print_script "0.1" "abc" "7" "q" "q" "" "" 3 2
          [Table.mk "S" 5 "1.00 KiB" ["CREATE TABLE _ (", ");"]]).find?
        (fun l => !(isCommentLine l) && !(isBlankLine l)) = some "set -eu" ∧
      (print_script "0.1" "abc" "7" "q" "q" "" "" 3 2
          [Table.mk "S" 5 "1.00 KiB" ["CREATE TABLE _ (", ");"]]).filter isDbgenLine =
        invocationLines "" "q" "" (2 * 3) 2 0
          [Table.mk "S" 5 "1.00 KiB" ["CREATE TABLE _ (", ");"]] ∧
      ((print_script "0.1" "abc" "7" "q" "q" "" "" 3 2
          [Table.mk "S" 5 "1.00 KiB" ["CREATE TABLE _ (", ");"]]).filter
        isDbgenLine).length = 1) := by
  have hschema : ∀ t ∈ [Table.mk "S" 5 "1.00 KiB" ["CREATE TABLE _ (", ");"]],
      ∀ l ∈ t.schema_lines, isDbgenLine l = false := by decide
  exact ⟨hschema, claim_C8_script_shape "0.1" "abc" "7" "q" "q" "" "" 3 2
    [Table.mk "S" 5 "1.00 KiB" ["CREATE TABLE _ (", ");"]] _ rfl hschema⟩

theorem append_to_cases (st : IndexAppender) (cn : List Bool) (inp : AppendInput) :
    st.append_to cn inp = st ∨
      (inp.index_set ≠ ∅ ∧ inp.index_set ∉ st.index_sets ∧
        (st.append_to cn inp =
            ⟨insert inp.index_set st.index_sets, st.schema⟩ ∨
          ∃ k, st.append_to cn inp =
            ⟨insert inp.index_set st.index_sets, st.schema ++ [(k, inp.index_set)]⟩)) := by
  unfold IndexAppender.append_to
  split_ifs with hA hB hC hD hE
  · exact Or.inl rfl
  · exact Or.inl rfl
  · push_neg at hB
    exact Or.inr ⟨hB.1, hB.2, Or.inr ⟨.primaryKey, rfl⟩⟩
  · push_neg at hB
    exact Or.inr ⟨hB.1, hB.2, Or.inr ⟨.uniqueKey, rfl⟩⟩
  · push_neg at hB
    exact Or.inr ⟨hB.1, hB.2, Or.inr ⟨.mysqlKey, rfl⟩⟩
  · push_neg at hB
    exact Or.inr ⟨hB.1, hB.2, Or.inl rfl⟩

theorem append_to_inv (st : IndexAppender) (cn : List Bool) (inp : AppendInput)
    (h1 : ∀ c ∈ st.schema, c.2 ≠ ∅ ∧ c.2 ∈ st.index_sets)
    (h2 : st.schema.Pairwise (fun c d => c.2 ≠ d.2)) :
    (∀ c ∈ (st.append_to cn inp).schema,
        c.2 ≠ ∅ ∧ c.2 ∈ (st.append_to cn inp).index_sets) ∧
      (st.append_to cn inp).schema.Pairwise (fun c d => c.2 ≠ d.2) := by
  rcases append_to_cases st cn inp with heq | ⟨hne, hnotmem, heq | ⟨k, heq⟩⟩
  · rw [heq]
    exact ⟨h1, h2⟩
  · rw [heq]
    refine ⟨?_, h2⟩
    intro c hc
    exact ⟨(h1 c hc).1, Finset.mem_insert_of_mem (h1 c hc).2⟩
  · rw [heq]
    constructor
    · intro c hc
      rcases List.mem_append.1 hc with hc | hc
      · exact ⟨(h1 c hc).1, Finset.mem_insert_of_mem (h1 c hc).2⟩
      · rcases List.mem_singleton.1 hc with rfl
        exact ⟨hne, Finset.mem_insert_self _ _⟩
    · rw [List.pairwise_append]
      refine ⟨h2, List.pairwise_singleton _ _, ?_⟩
      intro a ha b hb
      rcases List.mem_singleton.1 hb with rfl
      intro hab
      have hab2 : a.2 = inp.index_set := hab
      exact hnotmem (hab2 ▸ (h1 a ha).2)

theorem foldl_append_inv (cn : List Bool) :
    ∀ (inputs : List AppendInput) (st : IndexAppender),
      (∀ c ∈ st.schema, c.2 ≠ ∅ ∧ c.2 ∈ st.index_sets) →
      st.schema.Pairwise (fun c d => c.2 ≠ d.2) →
      (∀ c ∈ (inputs.foldl (fun st inp => st.append_to cn inp) st).schema,
          c.2 ≠ ∅ ∧ c.2 ∈ (inputs.foldl (fun st inp => st.append_to cn inp) st).index_sets) ∧
        (inputs.foldl (fun st inp => st.append_to cn inp) st).schema.Pairwise
          (fun c d => c.2 ≠ d.2) := by
  intro inputs
  induction inputs with
  | nil => intro st h1 h2; exact ⟨h1, h2⟩
  | cons inp rest ih =>
    intro st h1 h2
    obtain ⟨h1n, h2n⟩ := append_to_inv st cn inp h1 h2
    exact ih (st.append_to cn inp) h1n h2n

/-- C10.  Within one generated CREATE TABLE schema, the column sets of all
emitted PRIMARY KEY, UNIQUE and KEY clauses are non-empty and pairwise
distinct, for every sequence of `append_to` calls: the appender records every
accepted index set and appends nothing when the sampled set is empty or was
already used. -/
theorem claim_C10_index_clauses (columns_nullable : List Bool)
    (inputs : List AppendInput) :
    (∀ c ∈ (runAppender columns_nullable inputs).schema, c.2 ≠ ∅) ∧
      (runAppender columns_nullable inputs).schema.Pairwise (fun c d => c.2 ≠ d.2) := by
  obtain ⟨h1, h2⟩ := foldl_append_inv columns_nullable inputs IndexAppender.new
    (fun c hc => absurd hc (List.not_mem_nil c)) (List.Pairwise.nil)
  exact ⟨fun c hc => (h1 c hc).1, h2⟩
